import Mathlib

/-!
Verification model of `tsbtreedb/unbalancedDB.py`: a single-file, disk-backed
key/value store built on an immutable copy-on-write binary search tree.

The shallow embedding models the storage file as a list of records (the byte
file after the 4096-byte superblock).  A record address in the Python code is
a byte offset, always nonzero because the superblock occupies offsets
`[0, 4096)`; here the record appended at position `i` of the list gets
address `i + 1`, so address `0` plays the same "null reference" role it plays
in the source (`ValueRef.__init__` defaults `address=0`, and truthiness tests
`self._address` treat `0` as absent).  The pickled node payload is modelled
as a four-field record, the UTF-8 value payload as a `String`.

Keys are modelled as `Int` (the worked examples in the source use numeric
keys) and values as `String`.  Python exceptions become constructors of
`PyErr`.  Loops that chase references through the file (`get`, `_insert`,
`get_min`, `get_left`, `get_right`, `traverse_in_order`, `chop`) cannot be
proved terminating on arbitrary file contents, so they take a fuel
parameter; `PyErr.stuck` marks fuel exhaustion or a malformed record, both
unreachable from well-formed states (the Python code would loop or raise on
such inputs, and is never claimed to do otherwise here).
-/

namespace UDB

/-- Python exceptions and error kinds observable in `unbalancedDB.py`.
`keyError` is `raise KeyError`; `attributeError` is an `AttributeError`
(attribute access on `None` or on an object lacking the attribute);
`valueError` is `ValueError('Database closed.')`; `unboundLocalError` is
Python's error for reading a never-assigned local variable;
`unsupportedOperation` is the error kind the specification's error model
names for `delete` (the code never constructs it); `stuck` is a modelling
artefact for fuel exhaustion / malformed records. -/
inductive PyErr where
  | keyError
  | attributeError
  | valueError
  | unboundLocalError
  | unsupportedOperation
  | stuck
deriving DecidableEq, Repr

/-- One record in the storage file after the superblock: either a UTF-8
value payload (`ValueRef.referent_to_bytes`) or a pickled node payload of
four fields (`BinaryNodeRef.referent_to_bytes`): left child address, key,
value address, right child address. -/
inductive Record where
  | value (s : String)
  | node (left : Nat) (key : Int) (value : Nat) (right : Nat)
deriving DecidableEq, Repr

/-- The persistent part of the storage file: the record area and the root
address held in the superblock's first eight bytes. -/
structure File where
  records : List Record
  rootAddr : Nat
deriving DecidableEq, Repr

/-- `Storage`: the file plus the per-handle state (`self.locked`,
`self._f.closed`). -/
structure Storage where
  file : File
  locked : Bool
  closed : Bool
deriving DecidableEq, Repr

/-- `Storage.read` restricted to the record list: address `0` is never read
(callers guard on a truthy address), other addresses index the record
appended at position `address - 1`. -/
def read (recs : List Record) (address : Nat) : Option Record :=
  if address = 0 then none else recs[address - 1]?

/-- `Storage.lock`: if not locked, lock and report `True`; else `False`. -/
def Storage.lock (s : Storage) : Bool × Storage :=
  if s.locked then (false, s) else (true, { s with locked := true })

/-- `Storage.unlock`. -/
def Storage.unlock (s : Storage) : Storage :=
  { s with locked := false }

/-- `Storage.write`: append a record at the end of the file, locking the
file, and return the address at which it was written. -/
def Storage.write (s : Storage) (rec : Record) : Nat × Storage :=
  (s.file.records.length + 1,
   { s with file := ⟨s.file.records ++ [rec], s.file.rootAddr⟩, locked := true })

/-- `Storage.commit_root_address`: write the root address into the
superblock and unlock. -/
def Storage.commit_root_address (s : Storage) (a : Nat) : Storage :=
  { file := ⟨s.file.records, a⟩, locked := false, closed := s.closed }

/-- `Storage.get_root_address`: read the first integer of the superblock. -/
def Storage.get_root_address (s : Storage) : Nat :=
  s.file.rootAddr

/-- `Storage.close`: unlock and close the underlying handle. -/
def Storage.close (s : Storage) : Storage :=
  { s with locked := false, closed := true }

/-- `ValueRef`: a reference to a string value, holding an optional cached
referent and an address (0 meaning none yet). -/
structure ValueRef where
  referent : Option String
  address : Nat
deriving DecidableEq, Repr

mutual
/-- `BinaryNode`: immutable node with left reference, key, value reference,
right reference. -/
inductive BinaryNode where
  | mk : NodeRef → Int → ValueRef → NodeRef → BinaryNode

/-- `BinaryNodeRef`: a reference to a node, holding an optional cached
referent and an address (0 meaning a null reference). -/
inductive NodeRef where
  | mk : Option BinaryNode → Nat → NodeRef
end

/-- Referent slot of a node reference. -/
def NodeRef.referent : NodeRef → Option BinaryNode
  | ⟨r, _⟩ => r

/-- Address slot of a node reference. -/
def NodeRef.address : NodeRef → Nat
  | ⟨_, a⟩ => a

/-- Left reference of a node. -/
def BinaryNode.left_ref : BinaryNode → NodeRef
  | ⟨l, _, _, _⟩ => l

/-- Key of a node. -/
def BinaryNode.key : BinaryNode → Int
  | ⟨_, k, _, _⟩ => k

/-- Value reference of a node. -/
def BinaryNode.value_ref : BinaryNode → ValueRef
  | ⟨_, _, v, _⟩ => v

/-- Right reference of a node. -/
def BinaryNode.right_ref : BinaryNode → NodeRef
  | ⟨_, _, _, r⟩ => r

/-- `ValueRef.get`: return the cached referent; if absent and the address is
nonzero, read and decode the record (`bytes_to_referent`).  A node record at
a value address decodes to garbage in Python; here it yields `none`. -/
def ValueRef.get (v : ValueRef) (recs : List Record) : Option String :=
  match v.referent with
  | some s => some s
  | none =>
    if v.address = 0 then none
    else
      match read recs v.address with
      | some (.value s) => some s
      | _ => none

/-- `BinaryTree._follow` on a node reference: return the cached referent,
or read the record at a nonzero address and unpickle it into a node whose
child and value references are unresolved (address only). -/
def follow (recs : List Record) (r : NodeRef) : Option BinaryNode :=
  match r.referent with
  | some n => some n
  | none =>
    if r.address = 0 then none
    else
      match read recs r.address with
      | some (.node la k va ra) => some ⟨⟨none, la⟩, k, ⟨none, va⟩, ⟨none, ra⟩⟩
      | _ => none

/-- `ValueRef.store`: if there is a referent and no address yet, write the
encoded referent and record the returned address. -/
def ValueRef.store (v : ValueRef) (s : Storage) : ValueRef × Storage :=
  match v with
  | ⟨some str, 0⟩ =>
    let p := s.write (.value str)
    (⟨some str, p.1⟩, p.2)
  | _ => (v, s)

mutual
/-- `BinaryNodeRef.store`: if there is a referent and no address yet, first
store the referent's own references (`prepare_to_store` →
`BinaryNode.store_refs`), then write the encoded node and record the
returned address. -/
def NodeRef.store : NodeRef → Storage → NodeRef × Storage
  | ⟨some n, 0⟩, s =>
    let q := n.store_refs s
    let n' := q.1
    let p := q.2.write (.node n'.left_ref.address n'.key n'.value_ref.address n'.right_ref.address)
    (⟨some n', p.1⟩, p.2)
  | r, s => (r, s)

/-- `BinaryNode.store_refs`: store the value reference, then the left
reference, then the right reference. -/
def BinaryNode.store_refs : BinaryNode → Storage → BinaryNode × Storage
  | ⟨l, k, v, r⟩, s =>
    let pv := v.store s
    let pl := NodeRef.store l pv.2
    let pr := NodeRef.store r pl.2
    (⟨pl.1, k, pv.1, pr.1⟩, pr.2)
end

/-- A database handle: the storage and the tree's current root reference
(`BinaryTree._tree_ref`; `DBDB` owns one `Storage` and one `BinaryTree`). -/
structure DB where
  storage : Storage
  tree_ref : NodeRef

/-- `BinaryTree._refresh_tree_ref` composed with the guard used by `get`,
`get_left`, `get_right`, `chop` and `set`: if the storage is not locked by
this handle, re-read the root address; otherwise keep the current root
reference. -/
def refreshedRef (db : DB) : NodeRef :=
  if db.storage.locked then db.tree_ref else ⟨none, db.storage.get_root_address⟩

/-- The `while node is not None` loop of `BinaryTree.get`. -/
def getLoop (recs : List Record) : Nat → Option BinaryNode → Int → Except PyErr String
  | 0, _, _ => .error .stuck
  | _ + 1, none, _ => .error .keyError
  | fuel + 1, some n, key =>
    if key < n.key then getLoop recs fuel (follow recs n.left_ref) key
    else if key > n.key then getLoop recs fuel (follow recs n.right_ref) key
    else
      match n.value_ref.get recs with
      | some v => .ok v
      | none => .error .stuck

/-- `BinaryTree.get`: refresh the root reference unless locked, then descend
by key comparison; reaching a null reference raises `KeyError`. -/
def BinaryTree.get (db : DB) (fuel : Nat) (key : Int) : Except PyErr String :=
  let recs := db.storage.file.records
  getLoop recs fuel (follow recs (refreshedRef db)) key

/-- `BinaryTree._insert`: copy-on-write insertion producing a new path from
the root; the returned reference is dirty (`BinaryNodeRef(referent=new_node)`,
address 0). -/
def BinaryTree.insertAux (recs : List Record) :
    Nat → Option BinaryNode → Int → ValueRef → Option NodeRef
  | 0, _, _, _ => none
  | _ + 1, none, key, vref => some ⟨some ⟨⟨none, 0⟩, key, vref, ⟨none, 0⟩⟩, 0⟩
  | fuel + 1, some n, key, vref =>
    if key < n.key then
      (BinaryTree.insertAux recs fuel (follow recs n.left_ref) key vref).map
        (fun lr => ⟨some ⟨lr, n.key, n.value_ref, n.right_ref⟩, 0⟩)
    else if key > n.key then
      (BinaryTree.insertAux recs fuel (follow recs n.right_ref) key vref).map
        (fun rr => ⟨some ⟨n.left_ref, n.key, n.value_ref, rr⟩, 0⟩)
    else some ⟨some ⟨n.left_ref, n.key, vref, n.right_ref⟩, 0⟩

/-- `BinaryTree.set`: lock (refreshing the root reference if the lock was
newly acquired), wrap the value in a fresh `ValueRef`, and insert; only the
in-memory root reference changes. -/
def BinaryTree.set (db : DB) (fuel : Nat) (key : Int) (value : String) : Option DB :=
  let p := db.storage.lock
  (BinaryTree.insertAux p.2.file.records fuel
      (follow p.2.file.records (refreshedRef db)) key ⟨some value, 0⟩).map
    (fun r => ⟨p.2, r⟩)

/-- `BinaryTree.commit`: store the root reference (persisting the dirty
path) and publish its address in the superblock. -/
def BinaryTree.commit (db : DB) : DB :=
  let p := NodeRef.store db.tree_ref db.storage
  ⟨p.2.commit_root_address p.1.address, p.1⟩

/-- The `while True` loop of `BinaryTree.get_min`: descend left until the
left reference is null; entering the loop with `None` dereferences
`node.left_ref` on `None`, an `AttributeError`. -/
def getMinLoop (recs : List Record) : Nat → Option BinaryNode → Except PyErr String
  | 0, _ => .error .stuck
  | _ + 1, none => .error .attributeError
  | fuel + 1, some n =>
    match follow recs n.left_ref with
    | none =>
      (match n.value_ref.get recs with
       | some v => .ok v
       | none => .error .stuck)
    | some m => getMinLoop recs fuel (some m)

/-- `BinaryTree.get_min`: no refresh; descend left from the current root
reference. -/
def BinaryTree.get_min (db : DB) (fuel : Nat) : Except PyErr String :=
  let recs := db.storage.file.records
  getMinLoop recs fuel (follow recs db.tree_ref)

/-- The descent loop of `BinaryTree.get_left`: find the key, then return
`(node_left.key, node_left value)`; when the left reference of the found
node is null, `node_left` is `None` and `node_left.key` raises
`AttributeError`. -/
def getLeftLoop (recs : List Record) : Nat → Option BinaryNode → Int → Except PyErr (Int × String)
  | 0, _, _ => .error .stuck
  | _ + 1, none, _ => .error .keyError
  | fuel + 1, some n, key =>
    if key < n.key then getLeftLoop recs fuel (follow recs n.left_ref) key
    else if key > n.key then getLeftLoop recs fuel (follow recs n.right_ref) key
    else
      match follow recs n.left_ref with
      | none => .error .attributeError
      | some nl =>
        match nl.value_ref.get recs with
        | some v => .ok (nl.key, v)
        | none => .error .stuck

/-- `BinaryTree.get_left`: refresh unless locked, then run the descent. -/
def BinaryTree.get_left (db : DB) (fuel : Nat) (key : Int) : Except PyErr (Int × String) :=
  let recs := db.storage.file.records
  getLeftLoop recs fuel (follow recs (refreshedRef db)) key

/-- The descent loop of `BinaryTree.get_right`, mirror image of
`getLeftLoop`. -/
def getRightLoop (recs : List Record) : Nat → Option BinaryNode → Int → Except PyErr (Int × String)
  | 0, _, _ => .error .stuck
  | _ + 1, none, _ => .error .keyError
  | fuel + 1, some n, key =>
    if key < n.key then getRightLoop recs fuel (follow recs n.left_ref) key
    else if key > n.key then getRightLoop recs fuel (follow recs n.right_ref) key
    else
      match follow recs n.right_ref with
      | none => .error .attributeError
      | some nr =>
        match nr.value_ref.get recs with
        | some v => .ok (nr.key, v)
        | none => .error .stuck

/-- `BinaryTree.get_right`: refresh unless locked, then run the descent. -/
def BinaryTree.get_right (db : DB) (fuel : Nat) (key : Int) : Except PyErr (Int × String) :=
  let recs := db.storage.file.records
  getRightLoop recs fuel (follow recs (refreshedRef db)) key

/-- `BinaryTree.traverse_in_order`: recursive in-order walk from a node,
appending `(key, value)` pairs. -/
def BinaryTree.traverse_in_order (recs : List Record) :
    Nat → Option BinaryNode → Option (List (Int × String))
  | 0, _ => none
  | _ + 1, none => some []
  | fuel + 1, some n => do
    let l ← BinaryTree.traverse_in_order recs fuel (follow recs n.left_ref)
    let v ← n.value_ref.get recs
    let r ← BinaryTree.traverse_in_order recs fuel (follow recs n.right_ref)
    some (l ++ (n.key, v) :: r)

/-- The descent loop of `BinaryTree.chop`: walk toward the chop key,
remembering every node at which the walk turned right toward a non-null
right child (`nodes_to_expand`) and the last node visited (`parent_node`).
Returns the accumulated list and the final `parent_node` (`none` when the
loop body never ran, leaving the Python local unassigned). -/
def chopLoop (recs : List Record) (chop_key : Int) :
    Nat → Option BinaryNode → Option BinaryNode → List BinaryNode →
    Option (List BinaryNode × Option BinaryNode)
  | 0, _, _, _ => none
  | _ + 1, none, parent, acc => some (acc, parent)
  | fuel + 1, some n, _, acc =>
    if chop_key < n.key then
      chopLoop recs chop_key fuel (follow recs n.left_ref) (some n) acc
    else if chop_key > n.key then
      chopLoop recs chop_key fuel (follow recs n.right_ref) (some n)
        (if (follow recs n.right_ref).isSome then acc ++ [n] else acc)
    else chopLoop recs chop_key fuel none (some n) acc

/-- The expansion pass of `BinaryTree.chop`: for every recorded node, in
order, include its own pair when its key is at most the chop key, then the
in-order traversal of its left subtree. -/
def chopExpand (recs : List Record) (fuel : Nat) (chop_key : Int) :
    List BinaryNode → Option (List (Int × String))
  | [] => some []
  | n :: rest => do
    let own ← if n.key ≤ chop_key then
        (n.value_ref.get recs).map (fun v => [(n.key, v)])
      else some []
    let sub ← BinaryTree.traverse_in_order recs fuel (follow recs n.left_ref)
    let out ← chopExpand recs fuel chop_key rest
    some (own ++ sub ++ out)

/-- `BinaryTree.chop`: refresh unless locked, run the descent, then append
`parent_node` to `nodes_to_expand` and expand.  When the tree is empty the
descent loop never runs and reading `parent_node` raises
`UnboundLocalError`. -/
def BinaryTree.chop (db : DB) (fuel : Nat) (chop_key : Int) :
    Except PyErr (List (Int × String)) :=
  let recs := db.storage.file.records
  match chopLoop recs chop_key fuel (follow recs (refreshedRef db)) none [] with
  | none => .error .stuck
  | some (_, none) => .error .unboundLocalError
  | some (ns, some p) =>
    match chopExpand recs fuel chop_key (ns ++ [p]) with
    | some out => .ok out
    | none => .error .stuck

/-- `DBDB._assert_not_closed` fused into each facade operation: `get`. -/
def DBDB.get (db : DB) (fuel : Nat) (key : Int) : Except PyErr String :=
  if db.storage.closed then .error .valueError else BinaryTree.get db fuel key

/-- `DBDB.set`. -/
def DBDB.set (db : DB) (fuel : Nat) (key : Int) (value : String) : Except PyErr DB :=
  if db.storage.closed then .error .valueError
  else
    match BinaryTree.set db fuel key value with
    | some db' => .ok db'
    | none => .error .stuck

/-- `DBDB.commit`. -/
def DBDB.commit (db : DB) : Except PyErr DB :=
  if db.storage.closed then .error .valueError else .ok (BinaryTree.commit db)

/-- `DBDB.close`: no closed-handle assertion; `Storage.close` unlocks and
closes the underlying file handle, and Python file close is idempotent, so
this never fails. -/
def DBDB.close (db : DB) : DB × Except PyErr Unit :=
  (⟨db.storage.close, db.tree_ref⟩, .ok ())

/-- `DBDB.delete`: after the closed-handle assertion it evaluates
`self._tree.delete`, but `BinaryTree` defines no `delete` (the method is
commented out in the source), so the attribute lookup raises
`AttributeError`; nothing is deleted. -/
def DBDB.delete (db : DB) (_key : Int) : DB × Except PyErr Unit :=
  (db, if db.storage.closed then .error .valueError else .error .attributeError)

/-- `DBDB.get_min`. -/
def DBDB.get_min (db : DB) (fuel : Nat) : Except PyErr String :=
  if db.storage.closed then .error .valueError else BinaryTree.get_min db fuel

/-- `DBDB.get_left`. -/
def DBDB.get_left (db : DB) (fuel : Nat) (key : Int) : Except PyErr (Int × String) :=
  if db.storage.closed then .error .valueError else BinaryTree.get_left db fuel key

/-- `DBDB.get_right`. -/
def DBDB.get_right (db : DB) (fuel : Nat) (key : Int) : Except PyErr (Int × String) :=
  if db.storage.closed then .error .valueError else BinaryTree.get_right db fuel key

/-- `DBDB.chop`. -/
def DBDB.chop (db : DB) (fuel : Nat) (chop_key : Int) : Except PyErr (List (Int × String)) :=
  if db.storage.closed then .error .valueError else BinaryTree.chop db fuel chop_key

/-- `connect`: open (or create) the file and construct the facade; the
storage starts unlocked and open, and `BinaryTree.__init__` reads the root
address into a fresh unresolved root reference. -/
def connect (f : File) : DB :=
  ⟨⟨f, false, false⟩, ⟨none, f.rootAddr⟩⟩

/-- A freshly created database file: superblock zeroed (root address 0), no
records. -/
def emptyFile : File :=
  ⟨[], 0⟩

/-- Run a list of `DBDB.set` calls in order, giving each the same fuel. -/
def setMany (fuel : Nat) : DB → List (Int × String) → Option DB
  | db, [] => some db
  | db, (k, v) :: rest =>
    match DBDB.set db fuel k v with
    | .ok db' => setMany fuel db' rest
    | .error _ => none

/-!
Abstract trees.  `PTree` is the mathematical binary tree a reference graph
denotes once every reference is resolved; the `p`-prefixed functions are the
reference-free counterparts of the tree operations, used to state and prove
their behaviour.
-/

/-- A plain binary search tree of `Int` keys and `String` values. -/
inductive PTree where
  | leaf
  | node (l : PTree) (k : Int) (v : String) (r : PTree)
deriving DecidableEq, Repr

/-- Height of an abstract tree; descent loops on a tree of height `h`
terminate within any fuel greater than `h`. -/
def height : PTree → Nat
  | .leaf => 0
  | .node l _ _ r => max (height l) (height r) + 1

/-- Reference-free `BinaryTree.get`. -/
def pget : PTree → Int → Except PyErr String
  | .leaf, _ => .error .keyError
  | .node l k v r, key =>
    if key < k then pget l key
    else if key > k then pget r key
    else .ok v

/-- Reference-free `BinaryTree._insert`. -/
def pinsert : PTree → Int → String → PTree
  | .leaf, key, value => .node .leaf key value .leaf
  | .node l k v r, key, value =>
    if key < k then .node (pinsert l key value) k v r
    else if key > k then .node l k v (pinsert r key value)
    else .node l k value r

/-- Reference-free `BinaryTree.traverse_in_order`. -/
def inorder : PTree → List (Int × String)
  | .leaf => []
  | .node l k v r => inorder l ++ (k, v) :: inorder r

/-- All keys of the tree satisfy the predicate. -/
def forKeys : PTree → (Int → Bool) → Bool
  | .leaf, _ => true
  | .node l k _ r, p => p k && forKeys l p && forKeys r p

/-- The binary-search-tree ordering invariant: at every node, every key in
the left subtree is strictly below the node's key and every key in the
right subtree strictly above it. -/
def isBST : PTree → Bool
  | .leaf => true
  | .node l k _ r =>
    forKeys l (fun x => decide (x < k)) && forKeys r (fun x => decide (k < x)) &&
      isBST l && isBST r

/-- Value attached to the last occurrence of a key in a list of `set`
arguments. -/
def lastVal : List (Int × String) → Int → Option String
  | [], _ => none
  | (k, v) :: rest, key =>
    match lastVal rest key with
    | some w => some w
    | none => if k = key then some v else none

/-- Fold a list of insertions over an abstract tree. -/
def foldIns (t : PTree) (kvs : List (Int × String)) : PTree :=
  kvs.foldl (fun a p => pinsert a p.1 p.2) t

/-- The subtree rooted at the node holding a key, found by binary-search
descent (the descent every lookup of the source performs). -/
def findNode : PTree → Int → Option PTree
  | .leaf, _ => none
  | .node l k v r, key =>
    if key < k then findNode l key
    else if key > k then findNode r key
    else some (.node l k v r)

/-- Value of the leftmost node of a nonempty tree. -/
def leftmostValue : PTree → Option String
  | .leaf => none
  | .node l _ v _ =>
    match l with
    | .leaf => some v
    | _ => leftmostValue l

/-- Reference-free `BinaryTree.get_min` (entering the loop on an empty tree
dereferences `None`). -/
def pGetMin : PTree → Except PyErr String
  | .leaf => .error .attributeError
  | .node l _ v _ =>
    match l with
    | .leaf => .ok v
    | _ => pGetMin l

/-- Reference-free `BinaryTree.get_left`. -/
def pGetLeft : PTree → Int → Except PyErr (Int × String)
  | .leaf, _ => .error .keyError
  | .node l k _ r, key =>
    if key < k then pGetLeft l key
    else if key > k then pGetLeft r key
    else
      match l with
      | .leaf => .error .attributeError
      | .node _ lk lv _ => .ok (lk, lv)

/-- Reference-free `BinaryTree.get_right`. -/
def pGetRight : PTree → Int → Except PyErr (Int × String)
  | .leaf, _ => .error .keyError
  | .node l k _ r, key =>
    if key < k then pGetRight l key
    else if key > k then pGetRight r key
    else
      match r with
      | .leaf => .error .attributeError
      | .node _ rk rv _ => .ok (rk, rv)

/-- Reference-free descent of `BinaryTree.chop` on a nonempty tree: the
list of nodes to expand, in descent order, including the final
`parent_node`. -/
def chopScan : PTree → Int → List PTree
  | .leaf, _ => []
  | .node l k v r, chop_key =>
    if chop_key < k then
      match l with
      | .leaf => [.node l k v r]
      | _ => chopScan l chop_key
    else if chop_key > k then
      match r with
      | .leaf => [.node l k v r]
      | _ => .node l k v r :: chopScan r chop_key
    else [.node l k v r]

/-- Reference-free expansion of one recorded node: its own pair when its key
is at most the chop key, then the in-order traversal of its left subtree. -/
def chopExpandP (chop_key : Int) : PTree → List (Int × String)
  | .leaf => []
  | .node l k v _ => (if k ≤ chop_key then [(k, v)] else []) ++ inorder l

/-- Expand every recorded node in order. -/
def expandAll (chop_key : Int) : List PTree → List (Int × String)
  | [] => []
  | st :: rest => chopExpandP chop_key st ++ expandAll chop_key rest

/-- Decode the abstract tree denoted by a node reference, resolving cached
referents and file records; executable, so concrete reference graphs can be
checked by evaluation. -/
def decodeRef (recs : List Record) : Nat → NodeRef → Option PTree
  | 0, _ => none
  | fuel + 1, r =>
    match r.referent with
    | some ⟨lr, k, vr, rr⟩ => do
      let tl ← decodeRef recs fuel lr
      let v ← vr.get recs
      let tr ← decodeRef recs fuel rr
      some (.node tl k v tr)
    | none =>
      if r.address = 0 then some .leaf
      else
        match read recs r.address with
        | some (.node la k va ra) => do
          let tl ← decodeRef recs fuel ⟨none, la⟩
          let v ← ValueRef.get ⟨none, va⟩ recs
          let tr ← decodeRef recs fuel ⟨none, ra⟩
          some (.node tl k v tr)
        | _ => none

/-!
Representation relations.  `RRel recs r t` says the node reference `r`
denotes the abstract tree `t` over the record list `recs`: either a null
reference, a cached in-memory node whose references denote the subtrees, or
an unresolved reference whose record decodes to such a node.  `Mem r t` is
the special case of a fully dirty (never stored) tree, as built by `set`
calls on a fresh database.
-/

/-- A node reference denotes an abstract tree over a record list. -/
inductive RRel (recs : List Record) : NodeRef → PTree → Prop where
  | leaf : RRel recs ⟨none, 0⟩ .leaf
  | memNode {lr rr : NodeRef} {vr : ValueRef} {a : Nat} {k : Int} {v : String}
      {tl tr : PTree} :
      RRel recs lr tl → vr.get recs = some v → RRel recs rr tr →
      RRel recs ⟨some ⟨lr, k, vr, rr⟩, a⟩ (.node tl k v tr)
  | diskNode {a la va ra : Nat} {k : Int} {v : String} {tl tr : PTree} :
      a ≠ 0 → read recs a = some (.node la k va ra) →
      ValueRef.get ⟨none, va⟩ recs = some v →
      RRel recs ⟨none, la⟩ tl → RRel recs ⟨none, ra⟩ tr →
      RRel recs ⟨none, a⟩ (.node tl k v tr)

/-- A fully in-memory, never-stored reference tree (every address 0, every
referent cached), as produced by `_insert` on a fresh database. -/
inductive Mem : NodeRef → PTree → Prop where
  | leaf : Mem ⟨none, 0⟩ .leaf
  | node {lr rr : NodeRef} {k : Int} {v : String} {tl tr : PTree} :
      Mem lr tl → Mem rr tr →
      Mem ⟨some ⟨lr, k, ⟨some v, 0⟩, rr⟩, 0⟩ (.node tl k v tr)

/-- What one `_follow` step yields on a node and its related tree. -/
def NodeRelP (recs : List Record) (b : BinaryNode) (st : PTree) : Prop :=
  ∃ lr vr rr k v tl tr,
    b = ⟨lr, k, vr, rr⟩ ∧ st = .node tl k v tr ∧
    RRel recs lr tl ∧ vr.get recs = some v ∧ RRel recs rr tr

/-- Invariant of a freshly created database being filled by `set` calls:
the file is still empty, the tree lives fully in memory, and before the
first `set` (storage unlocked) the tree is empty. -/
def Inv (db : DB) (t : PTree) : Prop :=
  db.storage.closed = false ∧ db.storage.file.records = [] ∧
    db.storage.file.rootAddr = 0 ∧ Mem db.tree_ref t ∧
    (db.storage.locked = false → t = .leaf)

/-- Insertions used to build the concrete demonstration database. -/
def demoKvs : List (Int × String) :=
  [(2, "b"), (1, "a"), (3, "c")]

/-- The abstract tree those insertions build. -/
def demoTree : PTree :=
  .node (.node .leaf 1 "a" .leaf) 2 "b" (.node .leaf 3 "c" .leaf)

/-- A concrete committed-and-reopened database holding `demoKvs`, obtained
by running the facade operations themselves. -/
def demoDB : DB :=
  match (setMany 5 (connect emptyFile) demoKvs).bind
      (fun d => (DBDB.commit d).toOption) with
  | some d => connect (DBDB.close d).1.storage.file
  | none => connect emptyFile

/-- The result of one further uncommitted `set` on the demonstration
database. -/
def demoDB2 : DB :=
  match DBDB.set demoDB 5 2 "z" with
  | .ok d => d
  | .error _ => demoDB

/-- A closed handle over the demonstration database. -/
def closedDB : DB :=
  (DBDB.close demoDB).1

/-- Following a related reference yields `none` exactly on the empty tree,
and otherwise a node related to the root. -/
theorem follow_rrel {recs : List Record} {r : NodeRef} {t : PTree}
    (h : RRel recs r t) :
    (t = .leaf ∧ follow recs r = none) ∨
      ∃ b, follow recs r = some b ∧ NodeRelP recs b t := by
  cases h with
  | leaf => exact Or.inl ⟨rfl, rfl⟩
  | memNode hl hv hr =>
    exact Or.inr ⟨_, rfl, _, _, _, _, _, _, _, rfl, rfl, hl, hv, hr⟩
  | diskNode ha hrec hv hl hr =>
    refine Or.inr ⟨_, ?_, _, _, _, _, _, _, _, rfl, rfl, hl, hv, hr⟩
    simp [follow, NodeRef.referent, NodeRef.address, ha, hrec]

/-- A fully in-memory tree is related over any record list. -/
theorem mem_rrel {r : NodeRef} {t : PTree} (recs : List Record) (h : Mem r t) :
    RRel recs r t := by
  induction h with
  | leaf => exact RRel.leaf
  | node hl hr ihl ihr => exact RRel.memNode ihl rfl ihr

/-- Reads of existing records survive appending records at the end. -/
theorem read_append {recs Δ : List Record} {a : Nat} {rec : Record}
    (h : read recs a = some rec) : read (recs ++ Δ) a = some rec := by
  unfold read at h ⊢
  by_cases h0 : a = 0
  · simp [h0] at h
  · simp only [h0, if_false] at h ⊢
    have hlt : a - 1 < recs.length := by
      by_contra hge
      simp [List.getElem?_eq_none (Nat.le_of_not_lt hge)] at h
    rw [List.getElem?_append_left hlt]
    exact h

/-- The record just appended is read back at address `length + 1`. -/
theorem read_concat (recs : List Record) (rec : Record) :
    read (recs ++ [rec]) (recs.length + 1) = some rec := by
  unfold read
  simp [List.getElem?_concat_length]

/-- Cached or successfully read values survive appending records. -/
theorem valueGet_append {recs Δ : List Record} {v : ValueRef} {s : String}
    (h : v.get recs = some s) : v.get (recs ++ Δ) = some s := by
  unfold ValueRef.get at h ⊢
  cases hv : v.referent with
  | some w => rw [hv] at h; exact h
  | none =>
    rw [hv] at h
    by_cases h0 : v.address = 0
    · simp [h0] at h
    · simp only [h0, if_false] at h ⊢
      cases hr : read recs v.address with
      | none => rw [hr] at h; cases h
      | some rec => rw [read_append hr]; rw [hr] at h; exact h

/-- Representation survives appending records at the end of the file. -/
theorem rrel_append {recs Δ : List Record} {r : NodeRef} {t : PTree}
    (h : RRel recs r t) : RRel (recs ++ Δ) r t := by
  induction h with
  | leaf => exact RRel.leaf
  | memNode hl hv hr ihl ihr => exact RRel.memNode ihl (valueGet_append hv) ihr
  | diskNode ha hrec hv hl hr ihl ihr =>
    exact RRel.diskNode ha (read_append hrec) (valueGet_append hv) ihl ihr

/-- Soundness of the executable decoder: a successful decode witnesses the
representation relation. -/
theorem decodeRef_sound {recs : List Record} :
    ∀ {fuel : Nat} {r : NodeRef} {t : PTree},
      decodeRef recs fuel r = some t → RRel recs r t := by
  intro fuel
  induction fuel with
  | zero => intro r t h; cases h
  | succ f ih =>
    intro r t h
    unfold decodeRef at h
    cases href : r.referent with
    | some n =>
      obtain ⟨lr, k, vr, rr⟩ := n
      rw [href] at h
      simp only [Option.bind_eq_bind, Option.bind_eq_some] at h
      obtain ⟨tl, hl, hrest⟩ := h
      obtain ⟨v, hv, hrest⟩ := hrest
      obtain ⟨tr, hr, hsome⟩ := hrest
      cases hsome
      have : r = ⟨some ⟨lr, k, vr, rr⟩, r.address⟩ := by
        cases r with
        | mk ref a => cases href; rfl
      rw [this]
      exact RRel.memNode (ih hl) hv (ih hr)
    | none =>
      rw [href] at h
      by_cases h0 : r.address = 0
      · simp only [h0, if_true] at h
        cases h
        have : r = ⟨none, 0⟩ := by
          cases r with
          | mk ref a =>
            cases href
            simp [NodeRef.address] at h0
            rw [h0]
        rw [this]
        exact RRel.leaf
      · simp only [h0, if_false] at h
        cases hrec : read recs r.address with
        | none => rw [hrec] at h; cases h
        | some rec =>
          rw [hrec] at h
          cases rec with
          | value s => cases h
          | node la k va ra =>
            simp only [Option.bind_eq_bind, Option.bind_eq_some] at h
            obtain ⟨tl, hl, hrest⟩ := h
            obtain ⟨v, hv, hrest⟩ := hrest
            obtain ⟨tr, hr, hsome⟩ := hrest
            cases hsome
            have : r = ⟨none, r.address⟩ := by
              cases r with
              | mk ref a => cases href; rfl
            rw [this]
            exact RRel.diskNode h0 hrec hv (ih hl) (ih hr)

/-- Fuel arithmetic: stepping into the left subtree. -/
theorem height_lt_left {tl tr : PTree} {k : Int} {v : String} {f : Nat}
    (hf : height (.node tl k v tr) < f + 1) : height tl < f := by
  have h1 := Nat.le_max_left (height tl) (height tr)
  simp only [height] at hf
  omega

/-- Fuel arithmetic: stepping into the right subtree. -/
theorem height_lt_right {tl tr : PTree} {k : Int} {v : String} {f : Nat}
    (hf : height (.node tl k v tr) < f + 1) : height tr < f := by
  have h1 := Nat.le_max_right (height tl) (height tr)
  simp only [height] at hf
  omega

/-- The `get` descent on a related reference computes the abstract
lookup. -/
theorem getLoop_rrel {recs : List Record} :
    ∀ {fuel : Nat} {t : PTree} {r : NodeRef} {key : Int},
      RRel recs r t → height t < fuel →
      getLoop recs fuel (follow recs r) key = pget t key := by
  intro fuel
  induction fuel with
  | zero => intro t r key _ hf; omega
  | succ f ih =>
    intro t r key h hf
    rcases follow_rrel h with ⟨rfl, hfol⟩ | ⟨b, hfol, lr, vr, rr, k, v, tl, tr, rfl, rfl, hl, hv, hr⟩
    · rw [hfol]; rfl
    · rw [hfol]
      simp only [getLoop, BinaryNode.key, BinaryNode.left_ref, BinaryNode.right_ref,
        BinaryNode.value_ref, pget]
      split_ifs with h1 h2
      · exact ih hl (height_lt_left hf)
      · exact ih hr (height_lt_right hf)
      · rw [hv]

/-- The `get_min` descent on a related reference computes the abstract
leftmost-value lookup (including the `AttributeError` on an empty tree). -/
theorem getMinLoop_rrel {recs : List Record} :
    ∀ {fuel : Nat} {t : PTree} {r : NodeRef},
      RRel recs r t → height t < fuel →
      getMinLoop recs fuel (follow recs r) = pGetMin t := by
  intro fuel
  induction fuel with
  | zero => intro t r _ hf; omega
  | succ f ih =>
    intro t r h hf
    rcases follow_rrel h with ⟨rfl, hfol⟩ | ⟨b, hfol, lr, vr, rr, k, v, tl, tr, rfl, rfl, hl, hv, hr⟩
    · rw [hfol]; rfl
    · rw [hfol]
      simp only [getMinLoop, BinaryNode.left_ref, BinaryNode.value_ref]
      rcases follow_rrel hl with ⟨rfl, hfl⟩ | ⟨bl, hfl, ll, vl, rl, lk, lv, ltl, ltr, rfl, hst, hll, hlv, hlr⟩
      · rw [hfl, hv]; rfl
      · rw [hfl]
        have hmin := ih hl (height_lt_left hf)
        rw [hfl] at hmin
        subst hst
        exact hmin

/-- The `get_left` descent on a related reference computes the abstract
immediate-left-child lookup. -/
theorem getLeftLoop_rrel {recs : List Record} :
    ∀ {fuel : Nat} {t : PTree} {r : NodeRef} {key : Int},
      RRel recs r t → height t < fuel →
      getLeftLoop recs fuel (follow recs r) key = pGetLeft t key := by
  intro fuel
  induction fuel with
  | zero => intro t r key _ hf; omega
  | succ f ih =>
    intro t r key h hf
    rcases follow_rrel h with ⟨rfl, hfol⟩ | ⟨b, hfol, lr, vr, rr, k, v, tl, tr, rfl, rfl, hl, hv, hr⟩
    · rw [hfol]; rfl
    · rw [hfol]
      simp only [getLeftLoop, BinaryNode.key, BinaryNode.left_ref, BinaryNode.right_ref,
        BinaryNode.value_ref, pGetLeft]
      split_ifs with h1 h2
      · exact ih hl (height_lt_left hf)
      · exact ih hr (height_lt_right hf)
      · rcases follow_rrel hl with ⟨rfl, hfl⟩ | ⟨bl, hfl, ll, vl, rl, lk, lv, ltl, ltr, rfl, hst, hll, hlv, hlr⟩
        · rw [hfl]
        · rw [hfl, hst]
          simp only [BinaryNode.key, BinaryNode.value_ref]
          rw [hlv]

/-- The `get_right` descent on a related reference computes the abstract
immediate-right-child lookup. -/
theorem getRightLoop_rrel {recs : List Record} :
    ∀ {fuel : Nat} {t : PTree} {r : NodeRef} {key : Int},
      RRel recs r t → height t < fuel →
      getRightLoop recs fuel (follow recs r) key = pGetRight t key := by
  intro fuel
  induction fuel with
  | zero => intro t r key _ hf; omega
  | succ f ih =>
    intro t r key h hf
    rcases follow_rrel h with ⟨rfl, hfol⟩ | ⟨b, hfol, lr, vr, rr, k, v, tl, tr, rfl, rfl, hl, hv, hr⟩
    · rw [hfol]; rfl
    · rw [hfol]
      simp only [getRightLoop, BinaryNode.key, BinaryNode.left_ref, BinaryNode.right_ref,
        BinaryNode.value_ref, pGetRight]
      split_ifs with h1 h2
      · exact ih hl (height_lt_left hf)
      · exact ih hr (height_lt_right hf)
      · rcases follow_rrel hr with ⟨rfl, hfr⟩ | ⟨br, hfr, rl2, vr2, rr2, rk, rv, rtl, rtr, rfl, hst, hrl, hrv, hrr⟩
        · rw [hfr]
        · rw [hfr, hst]
          simp only [BinaryNode.key, BinaryNode.value_ref]
          rw [hrv]

/-- In-order traversal of a related reference produces the abstract
in-order listing. -/
theorem traverse_rrel {recs : List Record} :
    ∀ {fuel : Nat} {t : PTree} {r : NodeRef},
      RRel recs r t → height t < fuel →
      BinaryTree.traverse_in_order recs fuel (follow recs r) = some (inorder t) := by
  intro fuel
  induction fuel with
  | zero => intro t r _ hf; omega
  | succ f ih =>
    intro t r h hf
    rcases follow_rrel h with ⟨rfl, hfol⟩ | ⟨b, hfol, lr, vr, rr, k, v, tl, tr, rfl, rfl, hl, hv, hr⟩
    · rw [hfol]; rfl
    · rw [hfol]
      simp only [BinaryTree.traverse_in_order, BinaryNode.key, BinaryNode.left_ref,
        BinaryNode.right_ref, BinaryNode.value_ref]
      rw [ih hl (height_lt_left hf), ih hr (height_lt_right hf), hv]
      simp [inorder]

/-- Copy-on-write insertion through a related reference returns a dirty
reference denoting the abstract insertion. -/
theorem insertAux_rrel {recs : List Record} :
    ∀ {fuel : Nat} {t : PTree} {r : NodeRef} {key : Int} {value : String},
      RRel recs r t → height t < fuel →
      ∃ bn, BinaryTree.insertAux recs fuel (follow recs r) key ⟨some value, 0⟩ =
          some ⟨some bn, 0⟩ ∧
        RRel recs ⟨some bn, 0⟩ (pinsert t key value) := by
  intro fuel
  induction fuel with
  | zero => intro t r key value _ hf; omega
  | succ f ih =>
    intro t r key value h hf
    rcases follow_rrel h with ⟨rfl, hfol⟩ | ⟨b, hfol, lr, vr, rr, k, v, tl, tr, rfl, rfl, hl, hv, hr⟩
    · rw [hfol]
      exact ⟨_, rfl, RRel.memNode RRel.leaf rfl RRel.leaf⟩
    · rw [hfol]
      simp only [BinaryTree.insertAux, BinaryNode.key, BinaryNode.left_ref,
        BinaryNode.right_ref, BinaryNode.value_ref, pinsert]
      split_ifs with h1 h2
      · obtain ⟨bn, heq, hrel⟩ := ih hl (height_lt_left hf)
        exact ⟨_, by rw [heq]; rfl, RRel.memNode hrel hv hr⟩
      · obtain ⟨bn, heq, hrel⟩ := ih hr (height_lt_right hf)
        exact ⟨_, by rw [heq]; rfl, RRel.memNode hl hv hrel⟩
      · exact ⟨_, rfl, RRel.memNode hl rfl hr⟩

/-- Copy-on-write insertion through a fully in-memory reference stays fully
in memory. -/
theorem insertAux_mem {recs : List Record} :
    ∀ {fuel : Nat} {t : PTree} {r : NodeRef} {key : Int} {value : String},
      Mem r t → height t < fuel →
      ∃ bn, BinaryTree.insertAux recs fuel (follow recs r) key ⟨some value, 0⟩ =
          some ⟨some bn, 0⟩ ∧
        Mem ⟨some bn, 0⟩ (pinsert t key value) := by
  intro fuel
  induction fuel with
  | zero => intro t r key value _ hf; omega
  | succ f ih =>
    intro t r key value h hf
    cases h with
    | leaf =>
      exact ⟨_, rfl, Mem.node Mem.leaf Mem.leaf⟩
    | node hl hr =>
      rw [show follow recs ⟨some ⟨_, _, ⟨some _, 0⟩, _⟩, 0⟩ = some ⟨_, _, ⟨some _, 0⟩, _⟩ from rfl]
      simp only [BinaryTree.insertAux, BinaryNode.key,
        BinaryNode.left_ref, BinaryNode.right_ref, BinaryNode.value_ref, pinsert]
      split_ifs with h1 h2
      · obtain ⟨bn, heq, hrel⟩ := ih hl (height_lt_left hf)
        exact ⟨_, by rw [heq]; rfl, Mem.node hrel hr⟩
      · obtain ⟨bn, heq, hrel⟩ := ih hr (height_lt_right hf)
        exact ⟨_, by rw [heq]; rfl, Mem.node hl hrel⟩
      · exact ⟨_, rfl, Mem.node hl hr⟩

/-- The descent loop of `chop` on a related, nonempty tree collects exactly
the nodes of the abstract scan `chopScan`, each related to its abstract
counterpart and no taller than the tree. -/
theorem chopLoop_rrel {recs : List Record} {ck : Int} :
    ∀ {fuel : Nat} {t : PTree} {r : NodeRef} {b : BinaryNode},
      RRel recs r t → height t < fuel → follow recs r = some b →
      ∀ (p₀ : Option BinaryNode) (acc : List BinaryNode),
        ∃ bns pbn,
          chopLoop recs ck fuel (some b) p₀ acc = some (acc ++ bns, some pbn) ∧
            List.Forall₂ (fun nb st => NodeRelP recs nb st ∧ height st ≤ height t)
              (bns ++ [pbn]) (chopScan t ck) := by
  intro fuel
  induction fuel with
  | zero => intro t r b _ hf _ _ _; omega
  | succ f ih =>
    intro t r b h hf hfol p₀ acc
    rcases follow_rrel h with ⟨rfl, hnone⟩ | ⟨b', hfol', lr, vr, rr, k, v, tl, tr, hb, rfl, hl, hv, hr⟩
    · rw [hnone] at hfol; cases hfol
    · rw [hfol'] at hfol
      cases hfol
      subst hb
      obtain ⟨f', rfl⟩ : ∃ f', f = f' + 1 := ⟨f - 1, by
        have := height_lt_left hf
        omega⟩
      have hself : NodeRelP recs ⟨lr, k, vr, rr⟩ (.node tl k v tr) :=
        ⟨_, _, _, _, _, _, _, rfl, rfl, hl, hv, hr⟩
      simp only [chopLoop, BinaryNode.key, BinaryNode.left_ref, BinaryNode.right_ref]
      split_ifs with h1 h2 h3
      · -- turn left
        rcases follow_rrel hl with ⟨rfl, hfl⟩ | ⟨bl, hfl, _, _, _, _, _, _, _, _, hstl, _, _, _⟩
        · rw [hfl]
          refine ⟨[], ⟨lr, k, vr, rr⟩, by simp [chopLoop], ?_⟩
          simp only [chopScan, if_pos h1, List.nil_append]
          exact List.Forall₂.cons ⟨hself, le_refl _⟩ List.Forall₂.nil
        · rw [hfl]
          obtain ⟨bns, pbn, heq, hfa⟩ :=
            ih hl (height_lt_left hf) hfl (some ⟨lr, k, vr, rr⟩) acc
          refine ⟨bns, pbn, heq, ?_⟩
          have hscan : chopScan (.node tl k v tr) ck = chopScan tl ck := by
            rw [hstl]
            simp only [chopScan, if_pos h1]
          rw [hscan]
          refine List.Forall₂.imp (fun nb st hst => ⟨hst.1, le_trans hst.2 ?_⟩) hfa
          have hle := Nat.le_max_left (height tl) (height tr)
          simp only [height]
          omega
      · -- turn right toward a non-null right child
        rcases follow_rrel hr with ⟨rfl, hfr⟩ | ⟨br, hfr, _, _, _, _, _, _, _, _, hstr, _, _, _⟩
        · rw [hfr] at h3
          simp at h3
        · rw [hfr]
          obtain ⟨bns, pbn, heq, hfa⟩ :=
            ih hr (height_lt_right hf) hfr (some ⟨lr, k, vr, rr⟩)
              (acc ++ [⟨lr, k, vr, rr⟩])
          refine ⟨⟨lr, k, vr, rr⟩ :: bns, pbn, ?_, ?_⟩
          · rw [heq, List.append_assoc]
            rfl
          · have hscan : chopScan (.node tl k v tr) ck = .node tl k v tr :: chopScan tr ck := by
              rw [hstr]
              simp only [chopScan]
              rw [if_neg h1, if_pos h2]
            rw [hscan]
            refine List.Forall₂.cons ⟨hself, le_refl _⟩ ?_
            refine List.Forall₂.imp (fun nb st hst => ⟨hst.1, le_trans hst.2 ?_⟩) hfa
            have hle := Nat.le_max_right (height tl) (height tr)
            simp only [height]
            omega
      · -- turn right toward a null right child: the loop ends here
        rcases follow_rrel hr with ⟨rfl, hfr⟩ | ⟨br, hfr, _, _, _, _, _, _, _, _, hstr, _, _, _⟩
        · rw [hfr]
          refine ⟨[], ⟨lr, k, vr, rr⟩, by simp [chopLoop], ?_⟩
          simp only [chopScan]
          rw [if_neg h1, if_pos h2]
          simp only [List.nil_append]
          exact List.Forall₂.cons ⟨hself, le_refl _⟩ List.Forall₂.nil
        · rw [hfr] at h3
          simp at h3
      · -- key found: the loop sets `node = None` and ends
        refine ⟨[], ⟨lr, k, vr, rr⟩, by simp [chopLoop], ?_⟩
        simp only [chopScan]
        rw [if_neg h1, if_neg h2]
        simp only [List.nil_append]
        exact List.Forall₂.cons ⟨hself, le_refl _⟩ List.Forall₂.nil

/-- The expansion pass of `chop` on a list of related nodes computes the
abstract expansion. -/
theorem chopExpand_rrel {recs : List Record} {ck : Int} {fuel : Nat} :
    ∀ {bns : List BinaryNode} {sts : List PTree},
      List.Forall₂ (fun nb st => NodeRelP recs nb st ∧ height st < fuel) bns sts →
      chopExpand recs fuel ck bns = some (expandAll ck sts) := by
  intro bns sts h
  induction h with
  | nil => rfl
  | @cons nb st bns' sts' hp hrest ih =>
    obtain ⟨⟨lr, vr, rr, k, v, tl, tr, rfl, rfl, hl, hv, hr⟩, hh⟩ := hp
    have htl : height tl < fuel := by
      have h1 := Nat.le_max_left (height tl) (height tr)
      simp only [height] at hh
      omega
    simp only [chopExpand, BinaryNode.key, BinaryNode.left_ref, BinaryNode.value_ref,
      expandAll, chopExpandP]
    rw [traverse_rrel hl htl, ih]
    split_ifs with hk
    · rw [hv]
      rfl
    · rfl

/-- Storing a fully in-memory tree appends records to the file (leaving the
existing records, the root address and the closed flag untouched) and
leaves the reference tree readable back from the returned address. -/
theorem store_mem :
    ∀ {t : PTree} {r : NodeRef}, Mem r t → ∀ (s : Storage),
      ∃ Δ, (NodeRef.store r s).2.file.records = s.file.records ++ Δ ∧
        (NodeRef.store r s).2.file.rootAddr = s.file.rootAddr ∧
        (NodeRef.store r s).2.closed = s.closed ∧
        RRel (NodeRef.store r s).2.file.records ⟨none, (NodeRef.store r s).1.address⟩ t := by
  intro t r h
  induction h with
  | leaf =>
    intro s
    refine ⟨[], ?_, ?_, ?_, ?_⟩ <;> simp [NodeRef.store, NodeRef.address, RRel.leaf]
  | @node lr rr k v tl tr hl hr ihl ihr =>
    intro s
    -- component equations for the non-recursive steps
    have hva : (ValueRef.store ⟨some v, 0⟩ s).1 = ⟨some v, s.file.records.length + 1⟩ := rfl
    have hs1rec : (ValueRef.store ⟨some v, 0⟩ s).2.file.records =
        s.file.records ++ [.value v] := rfl
    have hs1root : (ValueRef.store ⟨some v, 0⟩ s).2.file.rootAddr = s.file.rootAddr := rfl
    have hs1closed : (ValueRef.store ⟨some v, 0⟩ s).2.closed = s.closed := rfl
    obtain ⟨Δl, hlrec, hlroot, hlclosed, hlrel⟩ := ihl (ValueRef.store ⟨some v, 0⟩ s).2
    obtain ⟨Δr, hrrec, hrroot, hrclosed, hrrel⟩ :=
      ihr (NodeRef.store lr (ValueRef.store ⟨some v, 0⟩ s).2).2
    simp only [NodeRef.store, BinaryNode.store_refs, BinaryNode.left_ref, BinaryNode.key,
      BinaryNode.value_ref, BinaryNode.right_ref, Storage.write, NodeRef.address, hva]
    refine ⟨[Record.value v] ++ Δl ++ Δr ++
        [Record.node (NodeRef.store lr (ValueRef.store ⟨some v, 0⟩ s).2).1.address k
          (s.file.records.length + 1)
          (NodeRef.store rr (NodeRef.store lr (ValueRef.store ⟨some v, 0⟩ s).2).2).1.address],
      ?_, ?_, ?_, ?_⟩
    · rw [hrrec, hlrec, hs1rec]
      simp [List.append_assoc, NodeRef.address]
    · rw [hrroot, hlroot, hs1root]
    · rw [hrclosed, hlclosed, hs1closed]
    · have hread := read_concat
        ((NodeRef.store rr (NodeRef.store lr (ValueRef.store ⟨some v, 0⟩ s).2).2).2.file.records)
        (Record.node (NodeRef.store lr (ValueRef.store ⟨some v, 0⟩ s).2).1.address k
          (s.file.records.length + 1)
          (NodeRef.store rr (NodeRef.store lr (ValueRef.store ⟨some v, 0⟩ s).2).2).1.address)
      have hv1 : read ((ValueRef.store ⟨some v, 0⟩ s).2.file.records)
          (s.file.records.length + 1) = some (.value v) := by
        rw [hs1rec]
        exact read_concat _ _
      have hval : ValueRef.get ⟨none, s.file.records.length + 1⟩
          ((NodeRef.store rr (NodeRef.store lr (ValueRef.store ⟨some v, 0⟩ s).2).2).2.file.records ++
            [Record.node (NodeRef.store lr (ValueRef.store ⟨some v, 0⟩ s).2).1.address k
              (s.file.records.length + 1)
              (NodeRef.store rr (NodeRef.store lr (ValueRef.store ⟨some v, 0⟩ s).2).2).1.address]) =
          some v := by
        have hv2 : read ((NodeRef.store rr
              (NodeRef.store lr (ValueRef.store ⟨some v, 0⟩ s).2).2).2.file.records ++
              [Record.node (NodeRef.store lr (ValueRef.store ⟨some v, 0⟩ s).2).1.address k
                (s.file.records.length + 1)
                (NodeRef.store rr (NodeRef.store lr (ValueRef.store ⟨some v, 0⟩ s).2).2).1.address])
            (s.file.records.length + 1) = some (.value v) := by
          rw [hrrec, hlrec]
          rw [List.append_assoc, List.append_assoc]
          exact read_append hv1
        unfold ValueRef.get
        simp only [hv2]
        rfl
      have hrell2 : RRel
          ((NodeRef.store rr (NodeRef.store lr (ValueRef.store ⟨some v, 0⟩ s).2).2).2.file.records ++
            [Record.node (NodeRef.store lr (ValueRef.store ⟨some v, 0⟩ s).2).1.address k
              (s.file.records.length + 1)
              (NodeRef.store rr (NodeRef.store lr (ValueRef.store ⟨some v, 0⟩ s).2).2).1.address])
          ⟨none, (NodeRef.store lr (ValueRef.store ⟨some v, 0⟩ s).2).1.address⟩ tl := by
        rw [hrrec, List.append_assoc]
        exact rrel_append hlrel
      have hrelr2 : RRel
          ((NodeRef.store rr (NodeRef.store lr (ValueRef.store ⟨some v, 0⟩ s).2).2).2.file.records ++
            [Record.node (NodeRef.store lr (ValueRef.store ⟨some v, 0⟩ s).2).1.address k
              (s.file.records.length + 1)
              (NodeRef.store rr (NodeRef.store lr (ValueRef.store ⟨some v, 0⟩ s).2).2).1.address])
          ⟨none, (NodeRef.store rr (NodeRef.store lr (ValueRef.store ⟨some v, 0⟩ s).2).2).1.address⟩
          tr :=
        rrel_append hrrel
      exact RRel.diskNode (by omega) hread hval hrell2 hrelr2

/-!
Pure facts about the abstract tree operations.
-/

/-- Lookup of the key just inserted reads back the new value. -/
theorem pget_pinsert_self (t : PTree) (k : Int) (v : String) :
    pget (pinsert t k v) k = .ok v := by
  induction t with
  | leaf => simp [pinsert, pget]
  | node l m w r ihl ihr =>
    simp only [pinsert]
    split_ifs with h1 h2
    · simp [pget, h1, ihl]
    · simp [pget, h1, h2, ihr]
    · simp [pget, h1, h2]

/-- Lookup of any other key is unchanged by an insertion. -/
theorem pget_pinsert_other (t : PTree) (k : Int) (v : String) (key : Int)
    (h : key ≠ k) : pget (pinsert t k v) key = pget t key := by
  induction t with
  | leaf =>
    simp only [pinsert, pget]
    split_ifs <;> first | rfl | omega
  | node l m w r ihl ihr =>
    simp only [pinsert]
    split_ifs with h1 h2
    · simp only [pget]
      split_ifs <;> first | exact ihl | rfl
    · simp only [pget]
      split_ifs <;> first | exact ihr | rfl
    · have hkm : k = m := by omega
      subst hkm
      simp only [pget]
      split_ifs <;> first | rfl | omega

/-- Lookup after insertion: the inserted key reads back the new value, any
other key reads as before. -/
theorem pget_pinsert (t : PTree) (k : Int) (v : String) (key : Int) :
    pget (pinsert t k v) key = if key = k then .ok v else pget t key := by
  by_cases hk : key = k
  · subst hk
    simp [pget_pinsert_self]
  · rw [if_neg hk]
    exact pget_pinsert_other t k v key hk

/-- Lookup after a sequence of insertions: the last write to a key wins;
keys never written read as in the initial tree. -/
theorem pget_foldIns :
    ∀ (kvs : List (Int × String)) (t : PTree) (key : Int),
      pget (foldIns t kvs) key =
        match lastVal kvs key with
        | some v => .ok v
        | none => pget t key := by
  intro kvs
  induction kvs with
  | nil => intro t key; rfl
  | cons p rest ih =>
    intro t key
    obtain ⟨a, b⟩ := p
    show pget (foldIns (pinsert t a b) rest) key = _
    rw [ih]
    simp only [lastVal]
    cases hrest : lastVal rest key with
    | some w => rfl
    | none =>
      rw [pget_pinsert]
      by_cases hak : a = key
      · subst hak
        simp
      · have hka : ¬key = a := fun h => hak h.symm
        simp [hak, hka]

/-- Insertion grows the height by at most one. -/
theorem height_pinsert (t : PTree) (k : Int) (v : String) :
    height (pinsert t k v) ≤ height t + 1 := by
  induction t with
  | leaf => simp [pinsert, height]
  | node l m w r ihl ihr =>
    simp only [pinsert]
    split_ifs <;> simp only [height] <;> omega

/-- A sequence of insertions grows the height by at most its length. -/
theorem height_foldIns :
    ∀ (kvs : List (Int × String)) (t : PTree),
      height (foldIns t kvs) ≤ height t + kvs.length := by
  intro kvs
  induction kvs with
  | nil => intro t; simp [foldIns]
  | cons p rest ih =>
    intro t
    have h1 := ih (pinsert t p.1 p.2)
    have h2 := height_pinsert t p.1 p.2
    show height (foldIns (pinsert t p.1 p.2) rest) ≤ _
    simp only [List.length_cons]
    omega

/-- Insertion preserves any key bound that the inserted key satisfies. -/
theorem forKeys_pinsert {t : PTree} {p : Int → Bool} {k : Int} {v : String}
    (ht : forKeys t p = true) (hk : p k = true) :
    forKeys (pinsert t k v) p = true := by
  induction t with
  | leaf => simp [pinsert, forKeys, hk]
  | node l m w r ihl ihr =>
    simp only [forKeys, Bool.and_eq_true] at ht
    obtain ⟨⟨hm, hl⟩, hr⟩ := ht
    simp only [pinsert]
    split_ifs
    · simp [forKeys, hm, ihl hl, hr]
    · simp [forKeys, hm, hl, ihr hr]
    · simp [forKeys, hm, hl, hr]

/-- Insertion preserves the binary-search-tree invariant. -/
theorem isBST_pinsert {t : PTree} (k : Int) (v : String) (h : isBST t = true) :
    isBST (pinsert t k v) = true := by
  induction t with
  | leaf => simp [pinsert, isBST, forKeys]
  | node l m w r ihl ihr =>
    simp only [isBST, Bool.and_eq_true] at h
    obtain ⟨⟨⟨hfl, hfr⟩, hbl⟩, hbr⟩ := h
    simp only [pinsert]
    split_ifs with h1 h2
    · have hk1 : decide (k < m) = true := decide_eq_true h1
      simp [isBST, forKeys_pinsert hfl hk1, hfr, ihl hbl, hbr]
    · have hk2 : decide (m < k) = true := decide_eq_true h2
      simp [isBST, hfl, forKeys_pinsert hfr hk2, hbl, ihr hbr]
    · simp [isBST, hfl, hfr, hbl, hbr]

/-- Every tree built by insertions from a binary search tree is a binary
search tree. -/
theorem isBST_foldIns :
    ∀ (kvs : List (Int × String)) (t : PTree), isBST t = true →
      isBST (foldIns t kvs) = true := by
  intro kvs
  induction kvs with
  | nil => intro t h; exact h
  | cons p rest ih =>
    intro t h
    exact ih (pinsert t p.1 p.2) (isBST_pinsert p.1 p.2 h)

/-- A key bound holds for every pair of the in-order listing. -/
theorem forKeys_inorder {t : PTree} {p : Int → Bool} (h : forKeys t p = true) :
    ∀ q ∈ inorder t, p q.1 = true := by
  induction t with
  | leaf => intro q hq; cases hq
  | node l m w r ihl ihr =>
    simp only [forKeys, Bool.and_eq_true] at h
    obtain ⟨⟨hm, hl⟩, hr⟩ := h
    intro q hq
    simp only [inorder, List.mem_append, List.mem_cons] at hq
    rcases hq with hq | hq | hq
    · exact ihl hl q hq
    · rw [hq]; exact hm
    · exact ihr hr q hq

/-- Keys all above the threshold contribute nothing to the filtered
in-order listing. -/
theorem filter_le_nil {t : PTree} {T k : Int} (hT : T ≤ k)
    (h : forKeys t (fun x => decide (k < x)) = true) :
    (inorder t).filter (fun q => decide (q.1 ≤ T)) = [] := by
  refine List.filter_eq_nil_iff.mpr ?_
  intro q hq
  have := forKeys_inorder h q hq
  simp only [decide_eq_true_eq] at this ⊢
  omega

/-- Keys all below the threshold pass the filter unchanged. -/
theorem filter_le_self {t : PTree} {T k : Int} (hT : k ≤ T + 1)
    (h : forKeys t (fun x => decide (x < k)) = true) :
    (inorder t).filter (fun q => decide (q.1 ≤ T)) = inorder t := by
  refine List.filter_eq_self.mpr ?_
  intro q hq
  have := forKeys_inorder h q hq
  simp only [decide_eq_true_eq] at this ⊢
  omega

/-- Correctness of the abstract chop on a nonempty binary search tree: the
expansion of the scan is a permutation of the in-order listing filtered by
the threshold. -/
theorem chop_perm (T : Int) :
    ∀ (t : PTree), isBST t = true → t ≠ .leaf →
      (expandAll T (chopScan t T)).Perm
        ((inorder t).filter (fun q => decide (q.1 ≤ T))) := by
  intro t
  induction t with
  | leaf => intro _ hne; exact absurd rfl hne
  | node l k v r ihl ihr =>
    intro hb _
    simp only [isBST, Bool.and_eq_true] at hb
    obtain ⟨⟨⟨hfl, hfr⟩, hbl⟩, hbr⟩ := hb
    have hfilter : (inorder (.node l k v r)).filter (fun q => decide (q.1 ≤ T)) =
        (inorder l).filter (fun q => decide (q.1 ≤ T)) ++
          (if (k ≤ T : Prop) then [(k, v)] else []) ++
          (inorder r).filter (fun q => decide (q.1 ≤ T)) := by
      simp only [inorder, List.filter_append, List.filter_cons]
      split_ifs with h1 h2 h3 <;> simp_all
    simp only [chopScan]
    split_ifs with h1 h2
    · -- T < k: the node and right subtree are filtered out
      rw [hfilter, if_neg (by omega), filter_le_nil (by omega) hfr, List.append_nil,
        List.append_nil]
      cases l with
      | leaf =>
        simp [expandAll, chopExpandP, if_neg (by omega : ¬k ≤ T), inorder]
      | node ll lk lv lr =>
        have hlne : (PTree.node ll lk lv lr) ≠ .leaf := by intro hcon; cases hcon
        exact ihl hbl hlne
    · -- T > k: the node and the whole left subtree qualify
      rw [hfilter, if_pos (by omega : k ≤ T), filter_le_self (by omega) hfl]
      cases r with
      | leaf =>
        simp only [expandAll, chopExpandP, if_pos (by omega : k ≤ T), List.append_nil,
          inorder, List.filter_nil, List.singleton_append]
        exact (List.perm_append_singleton _ _).symm
      | node rl rk rv rr2 =>
        have hrne : (PTree.node rl rk rv rr2) ≠ .leaf := by intro hcon; cases hcon
        have hr2 := ihr hbr hrne
        simp only [expandAll, chopExpandP, if_pos (by omega : k ≤ T), List.singleton_append]
        rw [List.append_assoc]
        refine List.Perm.trans (List.Perm.cons _ (List.Perm.append_left _ hr2)) ?_
        exact List.perm_middle.symm
    · -- T = k: the node and the whole left subtree qualify, right is out
      have hkT : k = T := by omega
      subst hkT
      rw [hfilter, if_pos (le_refl k), filter_le_self (by omega) hfl,
        filter_le_nil (by omega) hfr, List.append_nil]
      simp only [expandAll, chopExpandP, if_pos (le_refl k), List.append_nil,
        List.singleton_append]
      exact (List.perm_append_singleton _ _).symm

/-- Keys bounded away from `k` contribute nothing to the in-order listing
filtered for key `k`. -/
theorem filter_key_nil {t : PTree} {k : Int} {p : Int → Bool}
    (h : forKeys t p = true) (himp : ∀ x, p x = true → x ≠ k) :
    (inorder t).filter (fun q => decide (q.1 = k)) = [] := by
  refine List.filter_eq_nil_iff.mpr ?_
  intro q hq
  have hp := forKeys_inorder h q hq
  simp only [decide_eq_true_eq]
  exact himp q.1 hp

/-- After inserting `k` into a binary search tree, the in-order listing has
exactly one entry for `k`, carrying the inserted value. -/
theorem filter_key_pinsert {t : PTree} (k : Int) (v : String)
    (h : isBST t = true) :
    (inorder (pinsert t k v)).filter (fun q => decide (q.1 = k)) = [(k, v)] := by
  induction t with
  | leaf => simp [pinsert, inorder]
  | node l m w r ihl ihr =>
    simp only [isBST, Bool.and_eq_true] at h
    obtain ⟨⟨⟨hfl, hfr⟩, hbl⟩, hbr⟩ := h
    simp only [pinsert]
    split_ifs with h1 h2
    · simp only [inorder, List.filter_append, List.filter_cons, ihl hbl]
      rw [filter_key_nil hfr (fun x hx => by
        simp only [decide_eq_true_eq] at hx
        omega)]
      simp only [decide_eq_true_eq, List.append_nil]
      rw [if_neg (by omega : ¬m = k)]
      simp
    · simp only [inorder, List.filter_append, List.filter_cons, ihr hbr]
      rw [filter_key_nil hfl (fun x hx => by
        simp only [decide_eq_true_eq] at hx
        omega)]
      simp only [decide_eq_true_eq, List.nil_append]
      rw [if_neg (by omega : ¬m = k)]
    · have hkm : k = m := by omega
      subst hkm
      simp only [inorder, List.filter_append, List.filter_cons]
      rw [filter_key_nil hfl (fun x hx => by
          simp only [decide_eq_true_eq] at hx
          omega),
        filter_key_nil hfr (fun x hx => by
          simp only [decide_eq_true_eq] at hx
          omega)]
      simp

/-- Inserting the same key twice: the node for the key keeps its children
and only the value changes from the first to the second write. -/
theorem findNode_pinsert_twice :
    ∀ (t : PTree) (k : Int) (v1 v2 : String),
      ∃ l r, findNode (pinsert t k v1) k = some (.node l k v1 r) ∧
        findNode (pinsert (pinsert t k v1) k v2) k = some (.node l k v2 r) := by
  intro t
  induction t with
  | leaf =>
    intro k v1 v2
    exact ⟨.leaf, .leaf, by simp [pinsert, findNode], by simp [pinsert, findNode]⟩
  | node l m w r ihl ihr =>
    intro k v1 v2
    by_cases h1 : k < m
    · obtain ⟨l', r', hfind1, hfind2⟩ := ihl k v1 v2
      refine ⟨l', r', ?_, ?_⟩
      · simp [pinsert, findNode, h1, hfind1]
      · simp [pinsert, findNode, h1, hfind2]
    · by_cases h2 : k > m
      · obtain ⟨l', r', hfind1, hfind2⟩ := ihr k v1 v2
        refine ⟨l', r', ?_, ?_⟩
        · simp [pinsert, findNode, h1, h2, hfind1]
        · simp [pinsert, findNode, h1, h2, hfind2]
      · have hkm : k = m := by omega
        subst hkm
        exact ⟨l, r, by simp [pinsert, findNode], by simp [pinsert, findNode]⟩

/-- A key absent from the tree makes `get_left` descend to a null reference
and raise `KeyError`. -/
theorem pGetLeft_absent :
    ∀ {t : PTree} {key : Int}, findNode t key = none →
      pGetLeft t key = .error .keyError := by
  intro t
  induction t with
  | leaf => intro key _; rfl
  | node l m w r ihl ihr =>
    intro key h
    simp only [findNode] at h
    simp only [pGetLeft]
    split_ifs with h1 h2
    · rw [if_pos h1] at h
      exact ihl h
    · rw [if_neg h1, if_pos h2] at h
      exact ihr h
    · rw [if_neg h1, if_neg h2] at h
      cases h

/-- A key absent from the tree makes `get_right` descend to a null
reference and raise `KeyError`. -/
theorem pGetRight_absent :
    ∀ {t : PTree} {key : Int}, findNode t key = none →
      pGetRight t key = .error .keyError := by
  intro t
  induction t with
  | leaf => intro key _; rfl
  | node l m w r ihl ihr =>
    intro key h
    simp only [findNode] at h
    simp only [pGetRight]
    split_ifs with h1 h2
    · rw [if_pos h1] at h
      exact ihl h
    · rw [if_neg h1, if_pos h2] at h
      exact ihr h
    · rw [if_neg h1, if_neg h2] at h
      cases h

/-- A found key whose node has a null left reference makes `get_left`
dereference `None` and raise `AttributeError`. -/
theorem pGetLeft_null :
    ∀ {t : PTree} {key k : Int} {v : String} {r : PTree},
      findNode t key = some (.node .leaf k v r) →
      pGetLeft t key = .error .attributeError := by
  intro t
  induction t with
  | leaf => intro key k v r h; cases h
  | node l m w r0 ihl ihr =>
    intro key k v r h
    simp only [findNode] at h
    simp only [pGetLeft]
    split_ifs with h1 h2
    · rw [if_pos h1] at h
      exact ihl h
    · rw [if_neg h1, if_pos h2] at h
      exact ihr h
    · rw [if_neg h1, if_neg h2] at h
      injection h with h
      cases h
      rfl

/-- A found key whose node has a null right reference makes `get_right`
dereference `None` and raise `AttributeError`. -/
theorem pGetRight_null :
    ∀ {t : PTree} {key k : Int} {v : String} {l : PTree},
      findNode t key = some (.node l k v .leaf) →
      pGetRight t key = .error .attributeError := by
  intro t
  induction t with
  | leaf => intro key k v l h; cases h
  | node l0 m w r ihl ihr =>
    intro key k v l h
    simp only [findNode] at h
    simp only [pGetRight]
    split_ifs with h1 h2
    · rw [if_pos h1] at h
      exact ihl h
    · rw [if_neg h1, if_pos h2] at h
      exact ihr h
    · rw [if_neg h1, if_neg h2] at h
      injection h with h
      cases h
      rfl

/-- On a nonempty tree, `get_min` returns the leftmost value. -/
theorem pGetMin_nonleaf :
    ∀ {t : PTree}, t ≠ .leaf →
      ∃ v, leftmostValue t = some v ∧ pGetMin t = .ok v := by
  intro t
  induction t with
  | leaf => intro h; exact absurd rfl h
  | node l k v r ihl ihr =>
    intro _
    cases l with
    | leaf => exact ⟨v, rfl, rfl⟩
    | node ll lk lv lr =>
      obtain ⟨w, hlm, hmin⟩ := ihl (by intro hcon; cases hcon)
      exact ⟨w, hlm, hmin⟩

/-!
State-transition lemmas for the facade pipeline `connect`; `set`⋆;
`commit`; `close`; reopen.
-/

/-- Locking never touches the file contents. -/
theorem lock_snd_file (s : Storage) : (s.lock).2.file = s.file := by
  unfold Storage.lock
  split <;> rfl

/-- Locking never touches the closed flag. -/
theorem lock_snd_closed (s : Storage) : (s.lock).2.closed = s.closed := by
  unfold Storage.lock
  split <;> rfl

/-- After `lock` the storage is locked. -/
theorem lock_snd_locked (s : Storage) : (s.lock).2.locked = true := by
  unfold Storage.lock
  split <;> simp_all

/-- One `DBDB.set` step preserves the fresh-database invariant and inserts
into the abstract tree. -/
theorem set_inv {db : DB} {t : PTree} {fuel : Nat} {k : Int} {v : String}
    (h : Inv db t) (hf : height t < fuel) :
    ∃ db', DBDB.set db fuel k v = .ok db' ∧ Inv db' (pinsert t k v) := by
  obtain ⟨hc, hrec, hroot, hmem, hlock⟩ := h
  have hmem' : Mem (refreshedRef db) t := by
    unfold refreshedRef
    cases hl : db.storage.locked
    · have ht : t = .leaf := hlock hl
      subst ht
      simp only [Bool.false_eq_true, if_false, Storage.get_root_address, hroot]
      exact Mem.leaf
    · simp only [if_true]
      exact hmem
  obtain ⟨bn, heq, hmemins⟩ :=
    @insertAux_mem db.storage.file.records fuel t (refreshedRef db) k v hmem' hf
  refine ⟨⟨(db.storage.lock).2, ⟨some bn, 0⟩⟩, ?_, ?_, ?_, ?_, ?_, ?_⟩
  · unfold DBDB.set BinaryTree.set
    rw [hc]
    simp only [Bool.false_eq_true, if_false]
    rw [lock_snd_file, heq]
    rfl
  · simp only [lock_snd_closed]
    exact hc
  · simp only [lock_snd_file]
    exact hrec
  · simp only [lock_snd_file]
    exact hroot
  · exact hmemins
  · intro hcon
    rw [lock_snd_locked] at hcon
    cases hcon

/-- A whole sequence of `DBDB.set` calls on a fresh database succeeds and
builds the fold of the abstract insertions. -/
theorem setMany_inv :
    ∀ (kvs : List (Int × String)) {db : DB} {t : PTree} {fuel : Nat},
      Inv db t → height t + kvs.length < fuel →
      ∃ db', setMany fuel db kvs = some db' ∧ Inv db' (foldIns t kvs) := by
  intro kvs
  induction kvs with
  | nil => intro db t fuel h _; exact ⟨db, rfl, h⟩
  | cons p rest ih =>
    intro db t fuel h hf
    obtain ⟨a, b⟩ := p
    have hf1 : height t < fuel := by
      simp only [List.length_cons] at hf
      omega
    obtain ⟨db1, hset, hinv1⟩ := @set_inv db t fuel a b h hf1
    have hf2 : height (pinsert t a b) + rest.length < fuel := by
      have hh := height_pinsert t a b
      simp only [List.length_cons] at hf
      omega
    obtain ⟨db', hrest, hinv⟩ := ih hinv1 hf2
    refine ⟨db', ?_, hinv⟩
    simp only [setMany]
    rw [hset]
    exact hrest

/-- `DBDB.commit` on an open handle persists the in-memory tree: the new
root address read back from the (appended-to) file denotes the same
abstract tree, and the handle ends unlocked and open. -/
theorem commit_persists {db : DB} {t : PTree}
    (hmem : Mem db.tree_ref t) (hc : db.storage.closed = false) :
    ∃ db', DBDB.commit db = .ok db' ∧
      db'.storage.closed = false ∧ db'.storage.locked = false ∧
      RRel db'.storage.file.records ⟨none, db'.storage.file.rootAddr⟩ t := by
  obtain ⟨Δ, hΔrec, hΔroot, hΔclosed, hrel⟩ := store_mem hmem db.storage
  refine ⟨BinaryTree.commit db, ?_, ?_, rfl, ?_⟩
  · unfold DBDB.commit
    rw [hc]
    rfl
  · unfold BinaryTree.commit Storage.commit_root_address
    simp only
    rw [hΔclosed]
    exact hc
  · unfold BinaryTree.commit Storage.commit_root_address
    simp only
    exact hrel

/-- Reading a key from a freshly reopened file computes the abstract
lookup on the tree the root address denotes. -/
theorem get_reopen {f : File} {t : PTree} {fuel : Nat} {key : Int}
    (hrel : RRel f.records ⟨none, f.rootAddr⟩ t) (hf : height t < fuel) :
    DBDB.get (connect f) fuel key = pget t key := by
  unfold DBDB.get connect BinaryTree.get refreshedRef
  simp only [Bool.false_eq_true, if_false, Storage.get_root_address]
  exact getLoop_rrel hrel hf

/-- `DBDB.set` never touches the file: only the lock flag and the in-memory
root reference change. -/
theorem set_preserves_file {db : DB} {fuel : Nat} {k : Int} {v : String} {db' : DB}
    (h : DBDB.set db fuel k v = .ok db') :
    db'.storage.file = db.storage.file ∧ db'.storage.closed = db.storage.closed := by
  unfold DBDB.set at h
  by_cases hc : db.storage.closed
  · rw [hc] at h
    simp at h
  · rw [Bool.not_eq_true] at hc
    rw [hc] at h
    simp only [Bool.false_eq_true, if_false] at h
    cases hset : BinaryTree.set db fuel k v with
    | none => rw [hset] at h; cases h
    | some d =>
      rw [hset] at h
      injection h with h
      subst h
      unfold BinaryTree.set at hset
      obtain ⟨r, _, hd⟩ := Option.map_eq_some'.mp hset
      rw [← hd]
      exact ⟨lock_snd_file db.storage, lock_snd_closed db.storage⟩

/-- The demonstration database is open and unlocked, and its root address
denotes `demoTree`. -/
theorem demo_rrel :
    RRel demoDB.storage.file.records (refreshedRef demoDB) demoTree :=
  decodeRef_sound (show decodeRef demoDB.storage.file.records 9
    (refreshedRef demoDB) = some demoTree from rfl)

/-- The demonstration database's current root reference (no refresh)
denotes `demoTree` as well. -/
theorem demo_rrel_root :
    RRel demoDB.storage.file.records demoDB.tree_ref demoTree :=
  decodeRef_sound (show decodeRef demoDB.storage.file.records 9
    demoDB.tree_ref = some demoTree from rfl)

/-- C1.  Round-trip durability: any sequence of `set(k, v)` calls on a
fresh database followed by `commit()` and `close()`, then reopening the
same file, makes `get(k)` return the value last set for `k`. -/
theorem claim_C1 (kvs : List (Int × String)) (key : Int) (v : String) (fuel : Nat)
    (hlast : lastVal kvs key = some v) (hfuel : kvs.length < fuel) :
    ∃ db1 db2, setMany fuel (connect emptyFile) kvs = some db1 ∧
      DBDB.commit db1 = .ok db2 ∧
      DBDB.get (connect (DBDB.close db2).1.storage.file) fuel key = .ok v := by
  have hinv0 : Inv (connect emptyFile) .leaf :=
    ⟨rfl, rfl, rfl, Mem.leaf, fun _ => rfl⟩
  obtain ⟨db1, hset, hinv1⟩ := @setMany_inv kvs (connect emptyFile) .leaf fuel hinv0 (by
    simp only [height]
    omega)
  obtain ⟨hc1, _, _, hmem1, _⟩ := hinv1
  obtain ⟨db2, hcommit, hc2, hl2, hrel2⟩ := commit_persists hmem1 hc1
  refine ⟨db1, db2, hset, hcommit, ?_⟩
  have hfile : (DBDB.close db2).1.storage.file = db2.storage.file := rfl
  rw [hfile]
  have hh : height (foldIns .leaf kvs) < fuel := by
    have hle := height_foldIns kvs .leaf
    simp only [height] at hle
    omega
  rw [get_reopen hrel2 hh, pget_foldIns, hlast]

/-- Witness for C1 on the concrete run of the source's first test example. -/
theorem claim_C1_witness :
    ∃ db1 db2,
      setMany 5 (connect emptyFile) [(16, "big"), (15, "med"), (14, "sml")] = some db1 ∧
      DBDB.commit db1 = .ok db2 ∧
      DBDB.get (connect (DBDB.close db2).1.storage.file) 5 16 = .ok "big" :=
  claim_C1 [(16, "big"), (15, "med"), (14, "sml")] 16 "big" 5 rfl (by decide)

/-- C2.  Chop correctness: on every database whose (refreshed) root denotes
a nonempty binary search tree, `chop(T)` succeeds and returns exactly the
pairs with key at most `T` — the in-order listing filtered by the
threshold, up to order. -/
theorem claim_C2 (db : DB) (t : PTree) (T : Int) (fuel : Nat)
    (hopen : db.storage.closed = false)
    (hrel : RRel db.storage.file.records (refreshedRef db) t)
    (hbst : isBST t = true) (hne : t ≠ .leaf) (hfuel : height t < fuel) :
    ∃ out, DBDB.chop db fuel T = .ok out ∧
      out.Perm ((inorder t).filter (fun q => decide (q.1 ≤ T))) := by
  rcases follow_rrel hrel with ⟨rfl, _⟩ | ⟨b, hfol, hnp⟩
  · exact absurd rfl hne
  · obtain ⟨bns, pbn, hloop, hfa⟩ := chopLoop_rrel hrel hfuel hfol none []
    have hfa' : List.Forall₂
        (fun nb st => NodeRelP db.storage.file.records nb st ∧ height st < fuel)
        (bns ++ [pbn]) (chopScan t T) :=
      List.Forall₂.imp (fun nb st hst => ⟨hst.1, lt_of_le_of_lt hst.2 hfuel⟩) hfa
    have hexp := @chopExpand_rrel db.storage.file.records T fuel (bns ++ [pbn])
      (chopScan t T) hfa'
    refine ⟨expandAll T (chopScan t T), ?_, chop_perm T t hbst hne⟩
    unfold DBDB.chop BinaryTree.chop
    rw [hopen]
    simp only [Bool.false_eq_true, if_false]
    rw [hfol, hloop]
    simp only [List.nil_append]
    rw [hexp]

/-- Witness for C2 on the demonstration database with threshold 2. -/
theorem claim_C2_witness :
    ∃ out, DBDB.chop demoDB 5 2 = .ok out ∧
      out.Perm ((inorder demoTree).filter (fun q => decide (q.1 ≤ 2))) :=
  claim_C2 demoDB demoTree 2 5 rfl demo_rrel (by decide) (by decide) (by decide)

/-- C3.  Uncommitted sets are not durable: `set` writes nothing to the file
(neither records nor root address), so a `set` followed by `close` without
`commit` is invisible after reopening — `get` then computes the lookup in
the last committed tree (the last committed value, or `KeyError` if the key
was never committed). -/
theorem claim_C3 :
    (∀ (db : DB) (fuel : Nat) (k : Int) (v : String) (db' : DB),
        DBDB.set db fuel k v = .ok db' → db'.storage.file = db.storage.file) ∧
      (∀ (f : File) (t : PTree) (fuel : Nat) (k : Int) (v : String) (db' : DB),
        RRel f.records ⟨none, f.rootAddr⟩ t →
        DBDB.set (connect f) fuel k v = .ok db' →
        height t < fuel →
        DBDB.get (connect (DBDB.close db').1.storage.file) fuel k = pget t k) := by
  constructor
  · intro db fuel k v db' h
    exact (set_preserves_file h).1
  · intro f t fuel k v db' hrel hset hfuel
    have hfile : db'.storage.file = f := (set_preserves_file hset).1
    have hclose : (DBDB.close db').1.storage.file = db'.storage.file := rfl
    rw [hclose, hfile]
    exact get_reopen hrel hfuel

/-- Witness for C3: an uncommitted overwrite of key 2 on the demonstration
database is invisible after close and reopen. -/
theorem claim_C3_witness :
    demoDB2.storage.file = demoDB.storage.file ∧
    DBDB.get (connect (DBDB.close demoDB2).1.storage.file) 5 2 = pget demoTree 2 := by
  have hset : DBDB.set (connect demoDB.storage.file) 5 2 "z" = .ok demoDB2 := rfl
  have hrel : RRel demoDB.storage.file.records
      ⟨none, demoDB.storage.file.rootAddr⟩ demoTree :=
    decodeRef_sound (show decodeRef demoDB.storage.file.records 9
      ⟨none, demoDB.storage.file.rootAddr⟩ = some demoTree from rfl)
  exact ⟨claim_C3.1 demoDB 5 2 "z" demoDB2 rfl,
    claim_C3.2 demoDB.storage.file demoTree 5 2 "z" demoDB2 hrel hset (by decide)⟩

/-- C4.  BST ordering invariant: any sequence of insertions on a fresh
database leaves an in-memory tree whose abstract shape satisfies the
strict binary-search-tree ordering at every node. -/
theorem claim_C4 (kvs : List (Int × String)) (fuel : Nat)
    (hfuel : kvs.length < fuel) :
    ∃ db', setMany fuel (connect emptyFile) kvs = some db' ∧
      Mem db'.tree_ref (foldIns .leaf kvs) ∧
      isBST (foldIns .leaf kvs) = true := by
  have hinv0 : Inv (connect emptyFile) .leaf :=
    ⟨rfl, rfl, rfl, Mem.leaf, fun _ => rfl⟩
  obtain ⟨db', hset, hinv⟩ := @setMany_inv kvs (connect emptyFile) .leaf fuel hinv0 (by
    simp only [height]
    omega)
  exact ⟨db', hset, hinv.2.2.2.1, isBST_foldIns kvs .leaf rfl⟩

/-- Witness for C4 on the source's nine-pair balanced example. -/
theorem claim_C4_witness :
    ∃ db', setMany 12 (connect emptyFile)
        [(8, "eight"), (3, "three"), (10, "ten"), (1, "one"), (6, "six"),
         (14, "fourteen"), (4, "four"), (7, "seven"), (13, "thirteen")] = some db' ∧
      Mem db'.tree_ref (foldIns .leaf
        [(8, "eight"), (3, "three"), (10, "ten"), (1, "one"), (6, "six"),
         (14, "fourteen"), (4, "four"), (7, "seven"), (13, "thirteen")]) ∧
      isBST (foldIns .leaf
        [(8, "eight"), (3, "three"), (10, "ten"), (1, "one"), (6, "six"),
         (14, "fourteen"), (4, "four"), (7, "seven"), (13, "thirteen")]) = true :=
  claim_C4 _ 12 (by decide)

/-- C5.  No duplicate keys: setting the same key twice leaves exactly one
entry for the key, holding the latest value, and the key's node keeps the
same left and right children while only its value reference changes. -/
theorem claim_C5 (db : DB) (t : PTree) (fuel : Nat) (k : Int) (v1 v2 : String)
    (hopen : db.storage.closed = false)
    (hrel : RRel db.storage.file.records (refreshedRef db) t)
    (hbst : isBST t = true)
    (hfuel : height t + 1 < fuel) :
    ∃ db1 db2,
      DBDB.set db fuel k v1 = .ok db1 ∧ DBDB.set db1 fuel k v2 = .ok db2 ∧
      RRel db2.storage.file.records db2.tree_ref (pinsert (pinsert t k v1) k v2) ∧
      (inorder (pinsert (pinsert t k v1) k v2)).filter (fun q => decide (q.1 = k)) =
        [(k, v2)] ∧
      ∃ l r, findNode (pinsert t k v1) k = some (.node l k v1 r) ∧
        findNode (pinsert (pinsert t k v1) k v2) k = some (.node l k v2 r) := by
  have hrecs1 : (db.storage.lock).2.file.records = db.storage.file.records := by
    rw [lock_snd_file]
  obtain ⟨bn1, heq1, hrel1⟩ :=
    @insertAux_rrel db.storage.file.records fuel t (refreshedRef db) k v1 hrel (by omega)
  have hfuel2 : height (pinsert t k v1) < fuel := by
    have hh := height_pinsert t k v1
    omega
  obtain ⟨bn2, heq2, hrel2⟩ :=
    @insertAux_rrel db.storage.file.records fuel (pinsert t k v1) ⟨some bn1, 0⟩ k v2
      hrel1 hfuel2
  have hrecs2 : ((db.storage.lock).2.lock).2.file.records = db.storage.file.records := by
    rw [lock_snd_file, lock_snd_file]
  refine ⟨⟨(db.storage.lock).2, ⟨some bn1, 0⟩⟩, ⟨((db.storage.lock).2.lock).2, ⟨some bn2, 0⟩⟩,
    ?_, ?_, ?_, filter_key_pinsert k v2 (isBST_pinsert k v1 hbst),
    findNode_pinsert_twice t k v1 v2⟩
  · unfold DBDB.set BinaryTree.set
    rw [hopen]
    simp only [Bool.false_eq_true, if_false]
    rw [hrecs1, heq1]
    rfl
  · have hc1 : (db.storage.lock).2.closed = false := by
      rw [lock_snd_closed]
      exact hopen
    have hrefr : refreshedRef ⟨(db.storage.lock).2, ⟨some bn1, 0⟩⟩ = ⟨some bn1, 0⟩ := by
      unfold refreshedRef
      simp [lock_snd_locked]
    unfold DBDB.set BinaryTree.set
    simp only [hc1, Bool.false_eq_true, if_false]
    rw [hrecs2, hrefr, heq2]
    rfl
  · show RRel ((db.storage.lock).2.lock).2.file.records ⟨some bn2, 0⟩ _
    rw [hrecs2]
    exact hrel2

/-- Witness for C5: overwriting key 2 twice on the demonstration
database. -/
theorem claim_C5_witness :
    ∃ db1 db2,
      DBDB.set demoDB 5 2 "x" = .ok db1 ∧ DBDB.set db1 5 2 "y" = .ok db2 ∧
      RRel db2.storage.file.records db2.tree_ref
        (pinsert (pinsert demoTree 2 "x") 2 "y") ∧
      (inorder (pinsert (pinsert demoTree 2 "x") 2 "y")).filter
        (fun q => decide (q.1 = 2)) = [(2, "y")] ∧
      ∃ l r, findNode (pinsert demoTree 2 "x") 2 = some (.node l 2 "x" r) ∧
        findNode (pinsert (pinsert demoTree 2 "x") 2 "y") 2 = some (.node l 2 "y" r) :=
  claim_C5 demoDB demoTree 5 2 "x" "y" rfl demo_rrel (by decide) (by decide)

/-- C6.  `traverse_in_order` on a null root does return the empty list, but
`chop` on an empty database does not: the descent loop never runs, so
reading `parent_node` raises `UnboundLocalError` instead of returning an
empty sequence. -/
theorem claim_C6_bug :
    DBDB.chop (connect emptyFile) 1 0 = .error .unboundLocalError ∧
    BinaryTree.traverse_in_order ([] : List Record) 1 none = some [] ∧
    DBDB.chop (connect emptyFile) 1 0 ≠ .ok ([] : List (Int × String)) :=
  ⟨rfl, rfl, fun h => Except.noConfusion h⟩

/-- C7 counterexample: key 1 is present in the demonstration database and
its node's left reference is null, yet `get_left` fails with
`AttributeError`, not with the `KeyError` the claim requires. -/
theorem claim_C7_counterexample :
    DBDB.get_left demoDB 5 1 = .error .attributeError ∧
    DBDB.get_left demoDB 5 1 ≠ .error .keyError :=
  ⟨rfl, fun h => PyErr.noConfusion (Except.error.inj h)⟩

/-- C7 as amended: on a found key whose requested side is null, `get_left`
and `get_right` fail with `AttributeError` (dereferencing `None`), and on
an absent key they fail with `KeyError`. -/
theorem claim_C7_amended (db : DB) (t : PTree) (fuel : Nat) (key : Int)
    (hopen : db.storage.closed = false)
    (hrel : RRel db.storage.file.records (refreshedRef db) t)
    (hfuel : height t < fuel) :
    (∀ (k : Int) (v : String) (r : PTree), findNode t key = some (.node .leaf k v r) →
      DBDB.get_left db fuel key = .error .attributeError) ∧
    (∀ (k : Int) (v : String) (l : PTree), findNode t key = some (.node l k v .leaf) →
      DBDB.get_right db fuel key = .error .attributeError) ∧
    (findNode t key = none →
      DBDB.get_left db fuel key = .error .keyError ∧
      DBDB.get_right db fuel key = .error .keyError) := by
  have hgl : DBDB.get_left db fuel key = pGetLeft t key := by
    unfold DBDB.get_left BinaryTree.get_left
    rw [hopen]
    simp only [Bool.false_eq_true, if_false]
    exact getLeftLoop_rrel hrel hfuel
  have hgr : DBDB.get_right db fuel key = pGetRight t key := by
    unfold DBDB.get_right BinaryTree.get_right
    rw [hopen]
    simp only [Bool.false_eq_true, if_false]
    exact getRightLoop_rrel hrel hfuel
  refine ⟨?_, ?_, ?_⟩
  · intro k v r h
    rw [hgl]
    exact pGetLeft_null h
  · intro k v l h
    rw [hgr]
    exact pGetRight_null h
  · intro h
    rw [hgl, hgr]
    exact ⟨pGetLeft_absent h, pGetRight_absent h⟩

/-- Witness for the amended C7 on the demonstration database: key 1 found
with null left, key 3 found with null right, key 9 absent. -/
theorem claim_C7_witness :
    DBDB.get_left demoDB 5 1 = .error .attributeError ∧
    DBDB.get_right demoDB 5 3 = .error .attributeError ∧
    DBDB.get_left demoDB 5 9 = .error .keyError :=
  ⟨(claim_C7_amended demoDB demoTree 5 1 rfl demo_rrel (by decide)).1 1 "a" .leaf rfl,
   (claim_C7_amended demoDB demoTree 5 3 rfl demo_rrel (by decide)).2.1 3 "c" .leaf rfl,
   ((claim_C7_amended demoDB demoTree 5 9 rfl demo_rrel (by decide)).2.2 rfl).1⟩

/-- C8 counterexample: `delete` on an open database fails with
`AttributeError` (the tree class has no `delete`), not with the
`UnsupportedOperation` error kind the claim names. -/
theorem claim_C8_counterexample :
    (DBDB.delete (connect emptyFile) 0).2 = .error .attributeError ∧
    (DBDB.delete (connect emptyFile) 0).2 ≠ .error .unsupportedOperation :=
  ⟨rfl, fun h => PyErr.noConfusion (Except.error.inj h)⟩

/-- C8 as amended: on every open database, `delete` always fails — with an
`AttributeError`, because `BinaryTree.delete` is commented out of the
source — and executes no deletion: the handle is returned unchanged. -/
theorem claim_C8_amended (db : DB) (key : Int) (hopen : db.storage.closed = false) :
    DBDB.delete db key = (db, .error .attributeError) := by
  unfold DBDB.delete
  rw [hopen]
  rfl

/-- Witness for the amended C8 on the demonstration database. -/
theorem claim_C8_witness :
    DBDB.delete demoDB 7 = (demoDB, .error .attributeError) :=
  claim_C8_amended demoDB 7 rfl

/-- C9 counterexample: `close` on an already-closed handle succeeds (the
facade's `close` performs no closed-handle assertion and closing a closed
file is a no-op), refuting the claim that every listed operation fails. -/
theorem claim_C9_counterexample :
    (DBDB.close closedDB).2 = .ok () ∧
    closedDB.storage.closed = true ∧
    (DBDB.close closedDB).2 ≠ .error .valueError :=
  ⟨rfl, rfl, fun h => Except.noConfusion h⟩

/-- C9 as amended: after `close`, the operations `get`, `set`, `commit`,
`get_min`, `get_left`, `get_right`, `chop` and `delete` all fail with
`ValueError('Database closed.')`; `close` itself checks nothing and
succeeds idempotently. -/
theorem claim_C9_amended (db : DB) (fuel : Nat) (key : Int) (value : String) (T : Int)
    (hclosed : db.storage.closed = true) :
    DBDB.get db fuel key = .error .valueError ∧
    DBDB.set db fuel key value = .error .valueError ∧
    DBDB.commit db = .error .valueError ∧
    DBDB.get_min db fuel = .error .valueError ∧
    DBDB.get_left db fuel key = .error .valueError ∧
    DBDB.get_right db fuel key = .error .valueError ∧
    DBDB.chop db fuel T = .error .valueError ∧
    (DBDB.delete db key).2 = .error .valueError ∧
    (DBDB.close db).2 = .ok () := by
  unfold DBDB.get DBDB.set DBDB.commit DBDB.get_min DBDB.get_left DBDB.get_right
    DBDB.chop DBDB.delete DBDB.close
  rw [hclosed]
  simp

/-- Witness for the amended C9 on a closed demonstration handle. -/
theorem claim_C9_witness :
    DBDB.get closedDB 3 1 = .error .valueError ∧
    DBDB.set closedDB 3 1 "x" = .error .valueError ∧
    DBDB.commit closedDB = .error .valueError ∧
    DBDB.get_min closedDB 3 = .error .valueError ∧
    DBDB.get_left closedDB 3 1 = .error .valueError ∧
    DBDB.get_right closedDB 3 1 = .error .valueError ∧
    DBDB.chop closedDB 3 0 = .error .valueError ∧
    (DBDB.delete closedDB 1).2 = .error .valueError ∧
    (DBDB.close closedDB).2 = .ok () :=
  claim_C9_amended closedDB 3 1 "x" 0 rfl

/-- C10.  `get_min` on an empty database dereferences the null root and
fails with `AttributeError` (not a `KeyError`-style miss); on a nonempty
tree it returns the leftmost node's value. -/
theorem claim_C10 :
    (∀ (db : DB) (fuel : Nat),
        db.storage.closed = false → 0 < fuel →
        follow db.storage.file.records db.tree_ref = none →
        DBDB.get_min db fuel = .error .attributeError ∧
        DBDB.get_min db fuel ≠ .error .keyError) ∧
      (∀ (db : DB) (t : PTree) (fuel : Nat),
        db.storage.closed = false →
        RRel db.storage.file.records db.tree_ref t → t ≠ .leaf →
        height t < fuel →
        ∃ v, leftmostValue t = some v ∧ DBDB.get_min db fuel = .ok v) := by
  constructor
  · intro db fuel hopen hfuel hfol
    obtain ⟨f, rfl⟩ : ∃ f, fuel = f + 1 := ⟨fuel - 1, by omega⟩
    have hmin : DBDB.get_min db (f + 1) = .error .attributeError := by
      unfold DBDB.get_min BinaryTree.get_min
      rw [hopen]
      simp only [Bool.false_eq_true, if_false]
      rw [hfol]
      simp [getMinLoop]
    refine ⟨hmin, ?_⟩
    rw [hmin]
    exact fun h => PyErr.noConfusion (Except.error.inj h)
  · intro db t fuel hopen hrel hne hfuel
    obtain ⟨v, hlm, hpmin⟩ := pGetMin_nonleaf hne
    refine ⟨v, hlm, ?_⟩
    unfold DBDB.get_min BinaryTree.get_min
    rw [hopen]
    simp only [Bool.false_eq_true, if_false]
    rw [getMinLoop_rrel hrel hfuel, hpmin]

/-- Witness for C10: the empty database errs with `AttributeError`, the
demonstration database returns its leftmost value. -/
theorem claim_C10_witness :
    (DBDB.get_min (connect emptyFile) 1 = .error .attributeError ∧
      DBDB.get_min (connect emptyFile) 1 ≠ .error .keyError) ∧
    ∃ v, leftmostValue demoTree = some v ∧ DBDB.get_min demoDB 5 = .ok v :=
  ⟨claim_C10.1 (connect emptyFile) 1 rfl (by decide) rfl,
   claim_C10.2 demoDB demoTree 5 rfl demo_rrel_root (by decide) (by decide)⟩

end UDB
